import Mathlib

/-!
Shallow embedding of voicebox_pytorch/voicebox_pytorch.py.

Tensors are modelled as nested lists of rationals: a feature vector is a
list of rationals, a sequence is a list of feature vectors, and a batched
tensor is a list of sequences.  Learned modules whose internals no claim
inspects (the phoneme embedding table, the linear projection to the model
dimension, the depthwise convolution, the sinusoidal time embedding, the
attention and feedforward blocks and the skip combiners) are carried as
abstract functions in the model records, exactly as the weights of the
original modules parameterise the original forward passes.  The rotary
embedding arithmetic, which is trigonometric, is embedded over the reals.
Randomness (the uniform draw inside prob_mask_like) is passed in as an
explicit oracle of uniform samples.  Python runtime failures (assert
violations, popping an empty list, calling a loss on a missing target)
are modelled by Option, with none meaning the call raises.
-/

set_option linter.unusedVariables false

abbrev FVec := List ℚ

abbrev STensor := List FVec

abbrev BTensor := List STensor

/-- Elementwise addition of two equally shaped vectors (torch broadcastless add). -/
def ewAdd (a b : FVec) : FVec := List.zipWith (· + ·) a b

/-- Elementwise addition of two equally shaped sequences. -/
def addSeq (a b : STensor) : STensor := List.zipWith ewAdd a b

/-- Elementwise addition of two equally shaped batched tensors. -/
def addBatch (a b : BTensor) : BTensor := List.zipWith addSeq a b

/-- Elementwise subtraction of two equally shaped batched tensors. -/
def subBatch (a b : BTensor) : BTensor :=
  List.zipWith (fun s t => List.zipWith (fun v w => List.zipWith (· - ·) v w) s t) a b

/-- Multiplication of a batched tensor by a scalar. -/
def scaleBatch (c : ℚ) (a : BTensor) : BTensor :=
  a.map (fun s => s.map (fun v => v.map (fun q => c * q)))

/-- Mean of a list of rationals, matching torch.mean on a flat tensor. -/
def listMean (l : List ℚ) : ℚ := l.sum / l.length

/-- Last-axis size of a batched tensor, mirroring tensor.shape[-1]
(tensors are rectangular, so the first row's first vector is representative). -/
def lastDim (t : BTensor) : ℕ := ((t.headD []).headD []).length

/- prob_mask_like (voicebox_pytorch.py lines 29-35): with prob 1 a tensor of
ones, with prob 0 a tensor of zeros, otherwise an elementwise comparison of
uniform(0,1) draws against prob.  The uniform draws are supplied by the
oracle rng. -/

def prob_mask_like (n : ℕ) (prob : ℚ) (rng : ℕ → ℚ) : List Bool :=
  if prob = 1 then List.replicate n true
  else if prob = 0 then List.replicate n false
  else (List.range n).map (fun i => decide (rng i < prob))

/- Classifier-free-guidance substitution (lines 283-296 and 396-409):
torch.where over the per-example drop mask, broadcasting the null
conditioning vector over every position of a dropped example and the null
phoneme id over every id of a dropped example. -/

/-- Replace the conditioning of every dropped batch element by the null
conditioning vector at every position. -/
def cfgSubstCond (dropMask : List Bool) (nullCond : FVec) (cond : BTensor) : BTensor :=
  List.zipWith (fun b s => if b then s.map (fun _ => nullCond) else s) dropMask cond

/-- Replace the phoneme ids of every dropped batch element by the null id. -/
def cfgSubstIds (dropMask : List Bool) (nullId : ℕ) (ids : List (List ℕ)) : List (List ℕ) :=
  List.zipWith (fun b s => if b then s.map (fun _ => nullId) else s) dropMask ids

/-- The guard `if cond_drop_prob > 0` together with the single shared
drop-mask draw and the two torch.where substitutions, as one step. -/
def cfgApply (prob : ℚ) (rng : ℕ → ℚ) (nullCond : FVec) (nullId : ℕ)
    (cond : BTensor) (ids : List (List ℕ)) : BTensor × List (List ℕ) :=
  if 0 < prob then
    let dropMask := prob_mask_like cond.length prob rng
    (cfgSubstCond dropMask nullCond cond, cfgSubstIds dropMask nullId ids)
  else (cond, ids)

/- Losses.  F.l1_loss / F.mse_loss with default reduction take the mean of
the elementwise loss over every element; with reduction none they return
the elementwise loss tensor, which the forward passes then reduce. -/

/-- Per-position L1 loss reduced over the feature axis by mean
(einops reduce of the elementwise absolute difference, b n d to b n). -/
def l1Row (xv tv : FVec) : ℚ := listMean (List.zipWith (fun a b => |a - b|) xv tv)

/-- Per-position squared-error loss reduced over the feature axis by mean. -/
def mseRow (xv tv : FVec) : ℚ := listMean (List.zipWith (fun a b => (a - b) ^ 2) xv tv)

/-- Per-position L1 loss of a batched prediction against a target. -/
def l1BN (x t : BTensor) : List (List ℚ) :=
  List.zipWith (fun xs ts => List.zipWith l1Row xs ts) x t

/-- Per-position squared-error loss of a batched prediction against a target. -/
def mseBN (x t : BTensor) : List (List ℚ) :=
  List.zipWith (fun xs ts => List.zipWith mseRow xs ts) x t

/-- F.l1_loss with the default mean reduction: mean of all elementwise
absolute differences. -/
def l1LossMean (x t : BTensor) : ℚ :=
  listMean (List.flatten (List.flatten
    (List.zipWith (fun xs ts =>
      List.zipWith (fun xv tv => List.zipWith (fun a b => |a - b|) xv tv) xs ts) x t)))

/-- F.mse_loss with the default mean reduction. -/
def mseLossMean (x t : BTensor) : ℚ :=
  listMean (List.flatten (List.flatten
    (List.zipWith (fun xs ts =>
      List.zipWith (fun xv tv => List.zipWith (fun a b => (a - b) ^ 2) xv tv) xs ts) x t)))

/-- masked_fill over one batch row: positions whose mask entry is True are
set to zero (mask marks positions to exclude). -/
def maskFillRow (lrow : List ℚ) (mrow : List Bool) : List ℚ :=
  List.zipWith (fun l m => if m then 0 else l) lrow mrow

/-- The denominator of the masked mean (line 320): mask.sum over the
sequence axis, which counts the True entries, clamped below by 1e-5. -/
def maskDen (mrow : List Bool) : ℚ := max ((mrow.countP (fun b => b)) : ℚ) (1/100000)

/-- The masked reduction of a per-position loss tensor (lines 314-323):
zero the masked positions, sum each example, divide by the clamped
mask.sum, and take the batch mean. -/
def maskedLoss (lossBN : List (List ℚ)) (mask : List (List Bool)) : ℚ :=
  let filled := List.zipWith maskFillRow lossBN mask
  let num := filled.map List.sum
  let den := mask.map maskDen
  listMean (List.zipWith (· / ·) num den)

/-- The loss tail of DurationPredictor.forward (lines 308-323). -/
def durationLoss (x t : BTensor) (mask : Option (List (List Bool))) : ℚ :=
  match mask with
  | none => l1LossMean x t
  | some m => maskedLoss (l1BN x t) m

/-- The loss tail of VoiceBox.forward (lines 435-450), squared error. -/
def voiceboxLoss (x t : BTensor) (mask : Option (List (List Bool))) : ℚ :=
  match mask with
  | none => mseLossMean x t
  | some m => maskedLoss (mseBN x t) m

/- Transformer (lines 164-211).  A layer carries its optional learned skip
combiner, its attention block and its feedforward block as functions; the
rotary table the source passes to every attention call is a function of
the shared sequence length only and is absorbed into the abstract
attention function. -/

structure TLayer where
  skip_combiner : Option (FVec → FVec)
  attn : STensor → STensor
  ff : STensor → STensor

/-- The residual body of one layer: x = attn(x) + x followed by
x = ff(x) + x. -/
def plainStep (l : TLayer) (x : STensor) : STensor :=
  let x1 := addSeq (l.attn x) x
  addSeq (l.ff x1) x1

/-- One iteration of the layer loop (lines 197-209), returning the new
state, the new skip stack, and a trace entry recording the pre-attention
input of the layer together with the value it popped (if any).  Popping an
empty stack is a Python IndexError, modelled as none. -/
def layerStep (l : TLayer) (x : STensor) (stack : List STensor) :
    Option (STensor × List STensor × (STensor × Option STensor)) :=
  match l.skip_combiner with
  | none => some (plainStep l x, x :: stack, (x, none))
  | some comb =>
    match stack with
    | [] => none
    | top :: rest =>
      let xc := List.zipWith (fun xv sv => comb (xv ++ sv)) x top
      some (plainStep l xc, rest, (xc, some top))

/-- The layer loop of Transformer.forward, threading the skip stack and
accumulating the trace. -/
def transformerGo : List TLayer → STensor → List STensor →
    Option (STensor × List STensor × List (STensor × Option STensor))
  | [], x, stack => some (x, stack, [])
  | l :: ls, x, stack =>
    match layerStep l x stack with
    | none => none
    | some (y, stack2, e) =>
      match transformerGo ls y stack2 with
      | none => none
      | some (z, stack3, tr) => some (z, stack3, e :: tr)

/-- Transformer.forward (lines 192-211): run the layer loop from an empty
skip stack and return the final state. -/
def transformerForward (layers : List TLayer) (x : STensor) : Option STensor :=
  (transformerGo layers x []).map (fun r => r.1)

/-- Application of the transformer across the batch axis (attention never
mixes batch elements, so the batched call is the per-example call mapped
over the batch; a failure for any element is a failure of the call). -/
def mapTransformer (layers : List TLayer) : BTensor → Option BTensor
  | [] => some []
  | s :: t =>
    match transformerForward layers s, mapTransformer layers t with
    | some y, some ys => some (y :: ys)
    | _, _ => none

/-- The layer list built by Transformer's constructor (lines 182-190):
layer ind+1 has a skip combiner exactly when ind+1 > depth // 2. -/
def mkTransformerLayers (depth : ℕ) (attns ffs : ℕ → STensor → STensor)
    (combs : ℕ → FVec → FVec) : List TLayer :=
  (List.range depth).map (fun ind =>
    { skip_combiner := if depth / 2 < ind + 1 then some (combs ind) else none
      attn := attns ind
      ff := ffs ind })

/-- Transformer's constructor with its assert divisible_by(depth, 2)
(line 176); an odd depth raises, modelled as none. -/
def transformerInit (depth : ℕ) (attns ffs : ℕ → STensor → STensor)
    (combs : ℕ → FVec → FVec) : Option (List TLayer) :=
  if depth % 2 = 0 then some (mkTransformerLayers depth attns ffs combs) else none

/-- ConvPositionEmbed's constructor precondition assert is_odd(kernel_size)
(line 91); the randomly initialised convolution weights are not modelled. -/
def convPositionEmbedInit (kernel_size : ℕ) : Option Unit :=
  if kernel_size % 2 = 1 then some () else none

/-- LearnedSinusoidalPosEmb's constructor precondition assert
divisible_by(dim, 2) (line 44); the random weights are not modelled. -/
def learnedSinusoidalPosEmbInit (dim : ℕ) : Option Unit :=
  if dim % 2 = 0 then some () else none

/- The two models.  Learned submodules appear as abstract functions. -/

structure DP where
  dim : ℕ
  null_phoneme_id : ℕ
  to_phoneme_emb : ℕ → FVec
  null_cond : FVec
  to_embed : FVec → FVec
  conv_embed : STensor → STensor
  layers : List TLayer

structure VB where
  dim : ℕ
  null_phoneme_id : ℕ
  to_phoneme_emb : ℕ → FVec
  null_cond : FVec
  to_embed : FVec → FVec
  conv_embed : STensor → STensor
  sinu_pos_emb : ℚ → FVec
  layers : List TLayer

/-- The shared embedding step (lines 298-303 and 411-413): embed the
phoneme ids, concatenate x, phoneme embedding and conditioning along the
feature axis, and project with to_embed. -/
def embedTokens (pemb : ℕ → FVec) (toEmbed : FVec → FVec)
    (x : BTensor) (ids : List (List ℕ)) (cond : BTensor) : BTensor :=
  let phonemeEmb := ids.map (fun s => s.map pemb)
  let embed := List.zipWith (fun xs pcs => List.zipWith (fun xv pcv => xv ++ pcv) xs pcs) x
    (List.zipWith (fun ps cs => List.zipWith (fun pv cv => pv ++ cv) ps cs) phonemeEmb cond)
  embed.map (fun s => s.map toEmbed)

/-- DurationPredictor.forward (lines 269-323).  The leading assert on the
last dimensions, the CFG substitution, the embedding pipeline, the
residual convolutional position embedding, the transformer, and the L1
loss tail.  Calling it without a target raises inside F.l1_loss (none). -/
def dpForward (M : DP) (rng : ℕ → ℚ) (x : BTensor) (ids : List (List ℕ))
    (cond : BTensor) (cond_drop_prob : ℚ) (target : Option BTensor)
    (mask : Option (List (List Bool))) : Option ℚ :=
  if lastDim cond = lastDim x then
    let ci := cfgApply cond_drop_prob rng M.null_cond M.null_phoneme_id cond ids
    let x1 := embedTokens M.to_phoneme_emb M.to_embed x ci.2 ci.1
    let x2 := addBatch (x1.map M.conv_embed) x1
    match mapTransformer M.layers x2 with
    | none => none
    | some x3 =>
      match target with
      | none => none
      | some t => some (durationLoss x3 t mask)
  else none

abbrev VBOut := BTensor ⊕ ℚ

/-- VoiceBox.forward (lines 381-450).  Same head as DurationPredictor,
then the sinusoidal time token is prepended to each example (pack), the
transformer runs, the time token is split back off by position count
(unpack), and either the raw prediction is returned (no target) or the
mean-squared-error loss tail runs. -/
def vbForward (M : VB) (rng : ℕ → ℚ) (x : BTensor) (ids : List (List ℕ))
    (cond : BTensor) (times : List ℚ) (cond_drop_prob : ℚ)
    (target : Option BTensor) (mask : Option (List (List Bool))) : Option VBOut :=
  if lastDim cond = lastDim x then
    let ci := cfgApply cond_drop_prob rng M.null_cond M.null_phoneme_id cond ids
    let x1 := embedTokens M.to_phoneme_emb M.to_embed x ci.2 ci.1
    let x2 := addBatch (x1.map M.conv_embed) x1
    let x3 := List.zipWith (fun tm s => M.sinu_pos_emb tm :: s) times x2
    match mapTransformer M.layers x3 with
    | none => none
    | some y =>
      let y2 := y.map (fun s => s.drop 1)
      match target with
      | none => some (Sum.inl y2)
      | some t => some (Sum.inr (voiceboxLoss y2 t mask))
  else none

/-- DurationPredictor.forward_with_cond_scale (lines 254-267): one
conditioned pass; if cond_scale is 1 return it, otherwise one fully
unconditioned pass and the linear extrapolation
null_logits + (logits - null_logits) * cond_scale. -/
def dpForwardWithCondScale (M : DP) (rng : ℕ → ℚ) (x : BTensor)
    (ids : List (List ℕ)) (cond : BTensor) (target : Option BTensor)
    (mask : Option (List (List Bool))) (cond_scale : ℚ) : Option ℚ :=
  match dpForward M rng x ids cond 0 target mask with
  | none => none
  | some logits =>
    if cond_scale = 1 then some logits
    else
      match dpForward M rng x ids cond 1 target mask with
      | none => none
      | some nullLogits => some (nullLogits + (logits - nullLogits) * cond_scale)

/-- The extrapolation null + (logits - null) * cond_scale on VoiceBox
outputs, elementwise on tensors, plain on scalar losses; mixing the two
shapes is a runtime type error (none). -/
def cfgCombine (logits nullLogits : VBOut) (cond_scale : ℚ) : Option VBOut :=
  match logits, nullLogits with
  | Sum.inl a, Sum.inl b => some (Sum.inl (addBatch b (scaleBatch cond_scale (subBatch a b))))
  | Sum.inr a, Sum.inr b => some (Sum.inr (b + (a - b) * cond_scale))
  | _, _ => none

/-- VoiceBox.forward_with_cond_scale (lines 366-379). -/
def vbForwardWithCondScale (M : VB) (rng : ℕ → ℚ) (x : BTensor)
    (ids : List (List ℕ)) (cond : BTensor) (times : List ℚ)
    (target : Option BTensor) (mask : Option (List (List Bool)))
    (cond_scale : ℚ) : Option VBOut :=
  match vbForward M rng x ids cond times 0 target mask with
  | none => none
  | some logits =>
    if cond_scale = 1 then some logits
    else
      match vbForward M rng x ids cond times 1 target mask with
      | none => none
      | some nullLogits => cfgCombine logits nullLogits cond_scale

/- Rotary embeddings (lines 57-78), over the reals. -/

/-- RotaryEmbedding.forward (lines 67-71): the angle table whose row for
position i is the inverse-frequency vector scaled by i, duplicated across
the two halves of the last axis. -/
noncomputable def rotaryForward (inv_freq : List ℝ) (seq_len : ℕ) : List (List ℝ) :=
  (List.range seq_len).map (fun i =>
    let freqs := inv_freq.map (fun f => (i : ℝ) * f)
    freqs ++ freqs)

/-- rotate_half (lines 73-75): split the last axis into two halves (x1, x2)
and return (-x2, x1). -/
def rotate_half (x : List ℝ) : List ℝ :=
  let x1 := x.take (x.length / 2)
  let x2 := x.drop (x.length / 2)
  (x2.map Neg.neg) ++ x1

/-- apply_rotary_pos_emb (lines 77-78): t * pos.cos() + rotate_half(t) * pos.sin(). -/
noncomputable def apply_rotary_pos_emb (pos t : List ℝ) : List ℝ :=
  List.zipWith (· + ·)
    (List.zipWith (· * ·) t (pos.map Real.cos))
    (List.zipWith (· * ·) (rotate_half t) (pos.map Real.sin))

/-- Squared L2 norm of a vector. -/
def sumSq (l : List ℝ) : ℝ := (l.map (fun a => a ^ 2)).sum

/- Support definitions used to state and prove properties of the layer
loop and the shapes flowing through the forward passes. -/

/-- Plain composition of the residual layer bodies (what the loop computes
on a stretch of layers without skip combiners). -/
def plainFold : List TLayer → STensor → STensor
  | [], x => x
  | l :: ls, x => plainFold ls (plainStep l x)

/-- The successive pre-attention inputs of a stretch of layers without
skip combiners: the state entering each layer in order. -/
def plainFoldInputs : List TLayer → STensor → List STensor
  | [], _ => []
  | l :: ls, x => x :: plainFoldInputs ls (plainStep l x)

/-- A sequence tensor has n positions, each a vector of d features. -/
def SeqShape (n d : ℕ) (s : STensor) : Prop := s.length = n ∧ ∀ v ∈ s, v.length = d

/-- The shape discipline the real attention, feedforward and skip-combiner
modules obey: attention and feedforward map any sequence of d-vectors to a
sequence of the same length of d-vectors, and the skip combiner maps a
concatenated 2d-vector to a d-vector. -/
def LayerShapeOk (d : ℕ) (l : TLayer) : Prop :=
  (∀ n s, SeqShape n d s → SeqShape n d (l.attn s) ∧ SeqShape n d (l.ff s)) ∧
  (∀ c, l.skip_combiner = some c → ∀ v : FVec, v.length = 2 * d → (c v).length = d)

/-- A batch of B sequences, each of n positions of d-vectors. -/
def BatchShape (bsz n d : ℕ) (t : BTensor) : Prop :=
  t.length = bsz ∧ ∀ s ∈ t, SeqShape n d s

/-- A concrete one-dimensional DurationPredictor instance with zero
weights and an empty transformer, used to evaluate the theorems below on
closed inputs. -/
def dpM0 : DP :=
  { dim := 1
    null_phoneme_id := 0
    to_phoneme_emb := fun _ => [0]
    null_cond := [0]
    to_embed := fun _ => [0]
    conv_embed := fun s => s
    layers := [] }

/-- A concrete one-dimensional VoiceBox instance with zero weights and an
empty transformer. -/
def vbM0 : VB :=
  { dim := 1
    null_phoneme_id := 0
    to_phoneme_emb := fun _ => [0]
    null_cond := [0]
    to_embed := fun _ => [0]
    conv_embed := fun s => s
    sinu_pos_emb := fun _ => [0]
    layers := [] }

/-! ## General list lemmas -/

theorem zipWith_replicate_left {α β γ : Type} (f : α → β → γ) (c : α) :
    ∀ (l : List β) (n : ℕ), l.length ≤ n →
      List.zipWith f (List.replicate n c) l = l.map (f c) := by
  intro l
  induction l with
  | nil => intro n h; simp
  | cons b t ih =>
    intro n h
    cases n with
    | zero => simp at h
    | succ k =>
      rw [List.replicate_succ]
      simp only [List.zipWith_cons_cons, List.map_cons]
      rw [ih k (by simpa using h)]

theorem mem_zipWith {α β γ : Type} (f : α → β → γ) :
    ∀ (l1 : List α) (l2 : List β) (z : γ), z ∈ List.zipWith f l1 l2 →
      ∃ a b, a ∈ l1 ∧ b ∈ l2 ∧ z = f a b := by
  intro l1
  induction l1 with
  | nil => intro l2 z h; simp at h
  | cons a t ih =>
    intro l2 z h
    cases l2 with
    | nil => simp at h
    | cons b s =>
      simp only [List.zipWith_cons_cons, List.mem_cons] at h
      rcases h with h | h
      · exact ⟨a, b, by simp, by simp, h⟩
      · rcases ih s z h with ⟨a', b', ha, hb, hz⟩
        exact ⟨a', b', by simp [ha], by simp [hb], hz⟩

/-! ## Lemmas about the masked loss -/

theorem maskFillRow_sum_zero :
    ∀ (lrow : List ℚ) (mrow : List Bool), (∀ b ∈ mrow, b = true) →
      (maskFillRow lrow mrow).sum = 0 := by
  intro lrow
  induction lrow with
  | nil => intro mrow h; simp [maskFillRow]
  | cons a t ih =>
    intro mrow h
    cases mrow with
    | nil => simp [maskFillRow]
    | cons m ms =>
      have hm : m = true := h m (by simp)
      simp only [maskFillRow, List.zipWith_cons_cons, List.sum_cons, hm, if_true]
      rw [zero_add]
      exact ih ms (fun b hb => h b (by simp [hb]))

theorem maskFillRow_all_false :
    ∀ (lrow : List ℚ) (mrow : List Bool), (∀ b ∈ mrow, b = false) →
      lrow.length ≤ mrow.length → maskFillRow lrow mrow = lrow := by
  intro lrow
  induction lrow with
  | nil => intro mrow _ _; simp [maskFillRow]
  | cons a t ih =>
    intro mrow hall hlen
    cases mrow with
    | nil => simp at hlen
    | cons m ms =>
      have hm : m = false := hall m (by simp)
      have hhead : maskFillRow (a :: t) (m :: ms) = a :: maskFillRow t ms := by
        simp [maskFillRow, hm]
      rw [hhead, ih ms (fun b hb => hall b (by simp [hb])) (by simpa using hlen)]

theorem maskDen_all_false (mrow : List Bool) (h : ∀ b ∈ mrow, b = false) :
    maskDen mrow = 1/100000 := by
  unfold maskDen
  have hc : mrow.countP (fun b => b) = 0 :=
    List.countP_eq_zero.2 (fun b hb => by simp [h b hb])
  rw [hc]
  simp only [Nat.cast_zero]
  exact max_eq_right (by norm_num)

theorem maskDen_ge (mrow : List Bool) : (1 : ℚ)/100000 ≤ maskDen mrow :=
  le_max_right _ _

theorem maskedLoss_all_true (L : List (List ℚ)) (mask : List (List Bool))
    (h : ∀ row ∈ mask, ∀ b ∈ row, b = true) : maskedLoss L mask = 0 := by
  have key : ∀ (L : List (List ℚ)) (mask : List (List Bool)),
      (∀ row ∈ mask, ∀ b ∈ row, b = true) →
      ∀ q ∈ List.zipWith (· / ·) ((List.zipWith maskFillRow L mask).map List.sum)
        (mask.map maskDen), q = 0 := by
    intro L
    induction L with
    | nil => intro mask _ q hq; simp at hq
    | cons lrow L' ih =>
      intro mask hall q hq
      cases mask with
      | nil => simp at hq
      | cons mrow mask' =>
        simp only [List.zipWith_cons_cons, List.map_cons, List.mem_cons] at hq
        rcases hq with hq | hq
        · rw [hq, maskFillRow_sum_zero lrow mrow (hall mrow (by simp)), zero_div]
        · exact ih mask' (fun r hr => hall r (by simp [hr])) q hq
  simp only [maskedLoss, listMean]
  rw [List.sum_eq_zero (key L mask h), zero_div]

theorem maskedLoss_all_false (L : List (List ℚ)) (mask : List (List Bool))
    (hf : List.Forall₂ (fun (lrow : List ℚ) (mrow : List Bool) =>
      lrow.length ≤ mrow.length) L mask)
    (hall : ∀ row ∈ mask, ∀ b ∈ row, b = false) :
    maskedLoss L mask = listMean (L.map (fun lrow => lrow.sum * 100000)) := by
  have key : List.zipWith (· / ·) ((List.zipWith maskFillRow L mask).map List.sum)
      (mask.map maskDen) = L.map (fun lrow => lrow.sum * 100000) := by
    induction hf with
    | nil => rfl
    | @cons lrow mrow L' mask' hlen hrest ih =>
      have hm : ∀ b ∈ mrow, b = false := hall mrow (by simp)
      simp only [List.zipWith_cons_cons, List.map_cons]
      rw [maskFillRow_all_false lrow mrow hm hlen, maskDen_all_false mrow hm,
        ih (fun r hr => hall r (by simp [hr]))]
      congr 1
      rw [div_eq_mul_inv]
      norm_num
  simp only [maskedLoss]
  rw [key]

/-! ## Lemmas about the transformer layer loop -/

theorem plainFoldInputs_length : ∀ (L : List TLayer) (x : STensor),
    (plainFoldInputs L x).length = L.length := by
  intro L
  induction L with
  | nil => intro x; rfl
  | cons l ls ih => intro x; simp [plainFoldInputs, ih]

theorem layerStep_noskip (l : TLayer) (x : STensor) (st : List STensor)
    (h : l.skip_combiner = none) :
    layerStep l x st = some (plainStep l x, x :: st, (x, none)) := by
  simp [layerStep, h]

theorem layerStep_skip (l : TLayer) (c : FVec → FVec) (x top : STensor)
    (rest : List STensor) (h : l.skip_combiner = some c) :
    layerStep l x (top :: rest) =
      some (plainStep l (List.zipWith (fun xv sv => c (xv ++ sv)) x top), rest,
        (List.zipWith (fun xv sv => c (xv ++ sv)) x top, some top)) := by
  simp [layerStep, h]

theorem transformerGo_append_some :
    ∀ (L1 L2 : List TLayer) (x : STensor) (st : List STensor) (y : STensor)
      (st2 : List STensor) (tr1 : List (STensor × Option STensor)) (z : STensor)
      (st3 : List STensor) (tr2 : List (STensor × Option STensor)),
      transformerGo L1 x st = some (y, st2, tr1) →
      transformerGo L2 y st2 = some (z, st3, tr2) →
      transformerGo (L1 ++ L2) x st = some (z, st3, tr1 ++ tr2) := by
  intro L1
  induction L1 with
  | nil =>
    intro L2 x st y st2 tr1 z st3 tr2 h1 h2
    simp only [transformerGo, Option.some.injEq, Prod.mk.injEq] at h1
    obtain ⟨hy, hst, htr⟩ := h1
    subst hy
    subst hst
    subst htr
    simpa using h2
  | cons l ls ih =>
    intro L2 x st y st2 tr1 z st3 tr2 h1 h2
    rw [transformerGo] at h1
    rw [List.cons_append, transformerGo]
    cases hstep : layerStep l x st with
    | none => simp [hstep] at h1
    | some r =>
      rcases r with ⟨y1, stA, e⟩
      simp only [hstep] at h1 ⊢
      cases hgo : transformerGo ls y1 stA with
      | none => simp [hgo] at h1
      | some r2 =>
        rcases r2 with ⟨y2, stB, trB⟩
        simp only [hgo, Option.some.injEq, Prod.mk.injEq] at h1
        obtain ⟨hy, hst, htr⟩ := h1
        subst hy
        subst hst
        subst htr
        rw [ih L2 y1 stA y2 stB trB z st3 tr2 hgo h2]
        simp

theorem transformerGo_noskip : ∀ (L : List TLayer),
    (∀ l ∈ L, l.skip_combiner = none) → ∀ (x : STensor) (st : List STensor),
    transformerGo L x st =
      some (plainFold L x, (plainFoldInputs L x).reverse ++ st,
        (plainFoldInputs L x).map (fun i => (i, none))) := by
  intro L
  induction L with
  | nil => intro _ x st; simp [transformerGo, plainFold, plainFoldInputs]
  | cons l ls ih =>
    intro h x st
    have hl : l.skip_combiner = none := h l (by simp)
    have hrec := ih (fun a ha => h a (by simp [ha])) (plainStep l x) (x :: st)
    rw [transformerGo, layerStep_noskip l x st hl]
    simp only [hrec]
    simp [plainFold, plainFoldInputs, List.reverse_cons, List.append_assoc]

theorem transformerGo_allskip : ∀ (L : List TLayer) (st : List STensor) (x : STensor),
    (∀ l ∈ L, (l.skip_combiner).isSome) → L.length ≤ st.length →
    ∃ y tr, transformerGo L x st = some (y, st.drop L.length, tr) ∧
      tr.length = L.length ∧
      ∀ j, j < L.length → ∃ inp pop, tr[j]? = some (inp, some pop) ∧
        st[j]? = some pop := by
  intro L
  induction L with
  | nil =>
    intro st x _ _
    exact ⟨x, [], by simp [transformerGo], rfl, by intro j hj; simp at hj⟩
  | cons l ls ih =>
    intro st x hall hlen
    cases st with
    | nil => simp at hlen
    | cons top rest =>
      have hl : (l.skip_combiner).isSome := hall l (by simp)
      obtain ⟨c, hc⟩ := Option.isSome_iff_exists.1 hl
      obtain ⟨y, tr, hgo, htrlen, hj⟩ := ih rest
        (plainStep l (List.zipWith (fun xv sv => c (xv ++ sv)) x top))
        (fun a ha => hall a (by simp [ha])) (by simpa using hlen)
      refine ⟨y, (List.zipWith (fun xv sv => c (xv ++ sv)) x top, some top) :: tr,
        ?_, by simp [htrlen], ?_⟩
      · rw [transformerGo, layerStep_skip l c x top rest hc]
        simp only [hgo]
        simp
      · intro j hj'
        cases j with
        | zero => exact ⟨List.zipWith (fun xv sv => c (xv ++ sv)) x top, top, by simp, by simp⟩
        | succ k =>
          obtain ⟨inp, pop, h1, h2⟩ := hj k (by simpa using hj')
          exact ⟨inp, pop, by simpa using h1, by simpa using h2⟩

theorem mkTransformerLayers_split (m : ℕ) (attns ffs : ℕ → STensor → STensor)
    (combs : ℕ → FVec → FVec) :
    mkTransformerLayers (2*m) attns ffs combs =
      (List.range m).map (fun ind =>
        { skip_combiner := none, attn := attns ind, ff := ffs ind }) ++
      (List.range m).map (fun j =>
        { skip_combiner := some (combs (m + j)), attn := attns (m + j),
          ff := ffs (m + j) }) := by
  unfold mkTransformerLayers
  rw [two_mul, List.range_add, List.map_append, List.map_map]
  congr 1
  · apply List.map_congr_left
    intro ind hind
    have h1 : ind < m := List.mem_range.1 hind
    have h2 : (m + m) / 2 = m := by omega
    rw [h2, if_neg (by omega)]
  · apply List.map_congr_left
    intro j hj
    have h2 : (m + m) / 2 = m := by omega
    simp only [Function.comp]
    rw [h2, if_pos (by omega)]

/-! ## Shape lemmas for the VoiceBox forward pass -/

theorem prob_mask_like_length (n : ℕ) (p : ℚ) (rng : ℕ → ℚ) :
    (prob_mask_like n p rng).length = n := by
  unfold prob_mask_like
  split
  · simp
  · split
    · simp
    · simp

theorem cfgApply_shapes (p : ℚ) (rng : ℕ → ℚ) (nc : FVec) (nid : ℕ)
    (cond : BTensor) (ids : List (List ℕ)) (B N : ℕ)
    (hc : cond.length = B) (hcN : ∀ s ∈ cond, s.length = N)
    (hi : ids.length = B) (hiN : ∀ s ∈ ids, s.length = N) :
    (cfgApply p rng nc nid cond ids).1.length = B ∧
    (∀ s ∈ (cfgApply p rng nc nid cond ids).1, s.length = N) ∧
    (cfgApply p rng nc nid cond ids).2.length = B ∧
    (∀ s ∈ (cfgApply p rng nc nid cond ids).2, s.length = N) := by
  unfold cfgApply
  split
  · refine ⟨?_, ?_, ?_, ?_⟩
    · simp [cfgSubstCond, List.length_zipWith, prob_mask_like_length, hc]
    · intro s hs
      rcases mem_zipWith _ _ _ s hs with ⟨b, s0, _, hs0, rfl⟩
      cases b <;> simp [hcN s0 hs0]
    · simp [cfgSubstIds, List.length_zipWith, prob_mask_like_length, hc, hi]
    · intro s hs
      rcases mem_zipWith _ _ _ s hs with ⟨b, s0, _, hs0, rfl⟩
      cases b <;> simp [hiN s0 hs0]
  · exact ⟨hc, hcN, hi, hiN⟩

theorem embedTokens_shape (pemb : ℕ → FVec) (te : FVec → FVec) (x : BTensor)
    (ids : List (List ℕ)) (cond : BTensor) (B N d : ℕ)
    (hte : ∀ v, (te v).length = d)
    (hx : x.length = B) (hxN : ∀ s ∈ x, s.length = N)
    (hi : ids.length = B) (hiN : ∀ s ∈ ids, s.length = N)
    (hc : cond.length = B) (hcN : ∀ s ∈ cond, s.length = N) :
    (embedTokens pemb te x ids cond).length = B ∧
    ∀ s ∈ embedTokens pemb te x ids cond, SeqShape N d s := by
  constructor
  · simp [embedTokens, List.length_zipWith, hx, hi, hc]
  · intro s hs
    simp only [embedTokens] at hs
    rcases List.mem_map.1 hs with ⟨s0, hs0, rfl⟩
    rcases mem_zipWith _ _ _ s0 hs0 with ⟨xs, pcs, hxs, hpcs, rfl⟩
    rcases mem_zipWith _ _ _ pcs hpcs with ⟨ps, cs, hps, hcs, rfl⟩
    rcases List.mem_map.1 hps with ⟨s1, hs1, rfl⟩
    constructor
    · simp [List.length_zipWith, hxN xs hxs, hiN s1 hs1, hcN cs hcs]
    · intro v hv
      rcases List.mem_map.1 hv with ⟨v0, _, rfl⟩
      exact hte v0

theorem addSeq_shape (n d : ℕ) (a b : STensor) (ha : SeqShape n d a)
    (hb : SeqShape n d b) : SeqShape n d (addSeq a b) := by
  constructor
  · simp [addSeq, List.length_zipWith, ha.1, hb.1]
  · intro v hv
    rcases mem_zipWith _ _ _ v hv with ⟨va, vb, hva, hvb, rfl⟩
    simp [ewAdd, List.length_zipWith, ha.2 va hva, hb.2 vb hvb]

theorem plainStep_shape (l : TLayer) (n d : ℕ) (x : STensor)
    (hl : ∀ k s, SeqShape k d s → SeqShape k d (l.attn s) ∧ SeqShape k d (l.ff s))
    (hx : SeqShape n d x) : SeqShape n d (plainStep l x) := by
  have h1 : SeqShape n d (addSeq (l.attn x) x) :=
    addSeq_shape n d _ _ (hl n x hx).1 hx
  exact addSeq_shape n d _ _ (hl n _ h1).2 h1

theorem transformerGo_shape : ∀ (L : List TLayer) (x : STensor) (st : List STensor)
    (y : STensor) (st2 : List STensor) (tr : List (STensor × Option STensor))
    (n d : ℕ), (∀ l ∈ L, LayerShapeOk d l) → SeqShape n d x →
    (∀ s0 ∈ st, SeqShape n d s0) →
    transformerGo L x st = some (y, st2, tr) → SeqShape n d y := by
  intro L
  induction L with
  | nil =>
    intro x st y st2 tr n d _ hx _ heq
    simp only [transformerGo, Option.some.injEq, Prod.mk.injEq] at heq
    exact heq.1 ▸ hx
  | cons l ls ih =>
    intro x st y st2 tr n d hok hx hst heq
    have hlok := hok l (by simp)
    rw [transformerGo] at heq
    cases hskip : l.skip_combiner with
    | none =>
      rw [layerStep_noskip l x st hskip] at heq
      cases hgo : transformerGo ls (plainStep l x) (x :: st) with
      | none => simp [hgo] at heq
      | some r =>
        rcases r with ⟨y2, stB, trB⟩
        simp only [hgo, Option.some.injEq, Prod.mk.injEq] at heq
        obtain ⟨hy, _, _⟩ := heq
        have hplain : SeqShape n d (plainStep l x) := plainStep_shape l n d x hlok.1 hx
        have hrec := ih (plainStep l x) (x :: st) y2 stB trB n d
          (fun a ha => hok a (by simp [ha])) hplain
          (by
            intro s0 hs0
            rcases List.mem_cons.1 hs0 with h | h
            · exact h ▸ hx
            · exact hst s0 h)
          hgo
        exact hy ▸ hrec
    | some c =>
      cases st with
      | nil => simp [layerStep, hskip] at heq
      | cons top rest =>
        rw [layerStep_skip l c x top rest hskip] at heq
        have htop : SeqShape n d top := hst top (by simp)
        have hxc : SeqShape n d (List.zipWith (fun xv sv => c (xv ++ sv)) x top) := by
          constructor
          · simp [List.length_zipWith, hx.1, htop.1]
          · intro v hv
            rcases mem_zipWith _ _ _ v hv with ⟨xv, sv, hxv, hsv, rfl⟩
            have hlen2 : (xv ++ sv).length = 2*d := by
              rw [List.length_append, hx.2 xv hxv, htop.2 sv hsv]
              omega
            exact hlok.2 c hskip (xv ++ sv) hlen2
        cases hgo : transformerGo ls
            (plainStep l (List.zipWith (fun xv sv => c (xv ++ sv)) x top)) rest with
        | none => simp [hgo] at heq
        | some r =>
          rcases r with ⟨y2, stB, trB⟩
          simp only [hgo, Option.some.injEq, Prod.mk.injEq] at heq
          obtain ⟨hy, _, _⟩ := heq
          have hplain := plainStep_shape l n d _ hlok.1 hxc
          have hrec := ih _ rest y2 stB trB n d (fun a ha => hok a (by simp [ha]))
            hplain (fun s0 hs0 => hst s0 (by simp [hs0])) hgo
          exact hy ▸ hrec

theorem mkTransformerLayers_shape_ok (depth : ℕ) (attns ffs : ℕ → STensor → STensor)
    (combs : ℕ → FVec → FVec) (d : ℕ)
    (hattn : ∀ i k s, SeqShape k d s → SeqShape k d (attns i s))
    (hff : ∀ i k s, SeqShape k d s → SeqShape k d (ffs i s))
    (hcomb : ∀ i (v : FVec), v.length = 2*d → (combs i v).length = d) :
    ∀ l ∈ mkTransformerLayers depth attns ffs combs, LayerShapeOk d l := by
  intro l hl
  unfold mkTransformerLayers at hl
  rcases List.mem_map.1 hl with ⟨ind, _, rfl⟩
  constructor
  · intro k s hs
    exact ⟨hattn ind k s hs, hff ind k s hs⟩
  · intro c hcm v hv
    dsimp only at hcm
    split at hcm
    · have hc := Option.some.inj hcm
      rw [← hc]
      exact hcomb ind v hv
    · exact absurd hcm (by simp)

theorem mkTransformer_go_success (m : ℕ) (attns ffs : ℕ → STensor → STensor)
    (combs : ℕ → FVec → FVec) (s : STensor) :
    ∃ y st2 tr, transformerGo (mkTransformerLayers (2*m) attns ffs combs) s [] =
      some (y, st2, tr) := by
  have hsplit := mkTransformerLayers_split m attns ffs combs
  set A := (List.range m).map (fun ind =>
    ({ skip_combiner := none, attn := attns ind, ff := ffs ind } : TLayer)) with hA
  set B := (List.range m).map (fun j =>
    ({ skip_combiner := some (combs (m + j)), attn := attns (m + j),
       ff := ffs (m + j) } : TLayer)) with hB
  have hAnone : ∀ l ∈ A, l.skip_combiner = none := by
    intro l hl
    rcases List.mem_map.1 hl with ⟨i, _, rfl⟩
    rfl
  have hBsome : ∀ l ∈ B, (l.skip_combiner).isSome := by
    intro l hl
    rcases List.mem_map.1 hl with ⟨i, _, rfl⟩
    rfl
  have hAlen : A.length = m := by rw [hA, List.length_map, List.length_range]
  have hBlen : B.length = m := by rw [hB, List.length_map, List.length_range]
  have goA := transformerGo_noskip A hAnone s []
  rw [List.append_nil] at goA
  have hinLen : (plainFoldInputs A s).length = m := by
    rw [plainFoldInputs_length, hAlen]
  obtain ⟨y, trB, hgoB, _, _⟩ :=
    transformerGo_allskip B (plainFoldInputs A s).reverse (plainFold A s) hBsome
      (by rw [hBlen, List.length_reverse, hinLen])
  refine ⟨y, (plainFoldInputs A s).reverse.drop B.length,
    (plainFoldInputs A s).map (fun i => (i, none)) ++ trB, ?_⟩
  rw [hsplit]
  exact transformerGo_append_some A B s [] (plainFold A s)
    (plainFoldInputs A s).reverse ((plainFoldInputs A s).map (fun i => (i, none)))
    y ((plainFoldInputs A s).reverse.drop B.length) trB goA hgoB

theorem mkTransformer_forward_shape (m : ℕ) (attns ffs : ℕ → STensor → STensor)
    (combs : ℕ → FVec → FVec) (n d : ℕ) (s : STensor)
    (hok : ∀ l ∈ mkTransformerLayers (2*m) attns ffs combs, LayerShapeOk d l)
    (hs : SeqShape n d s) :
    ∃ r, transformerForward (mkTransformerLayers (2*m) attns ffs combs) s = some r ∧
      SeqShape n d r := by
  obtain ⟨y, st2, tr, hgo⟩ := mkTransformer_go_success m attns ffs combs s
  refine ⟨y, ?_, ?_⟩
  · simp only [transformerForward, hgo, Option.map_some']
  · exact transformerGo_shape _ s [] y st2 tr n d hok hs
      (by intro s0 h; simp at h) hgo

theorem mapTransformer_success (L : List TLayer) (n d : ℕ) : ∀ (t : BTensor),
    (∀ s ∈ t, ∃ r, transformerForward L s = some r ∧ SeqShape n d r) →
    ∃ ys, mapTransformer L t = some ys ∧ ys.length = t.length ∧
      ∀ r ∈ ys, SeqShape n d r := by
  intro t
  induction t with
  | nil =>
    intro _
    exact ⟨[], rfl, rfl, by intro r hr; simp at hr⟩
  | cons s t' ih =>
    intro h
    obtain ⟨r, hr, hrS⟩ := h s (by simp)
    obtain ⟨ys, hys, hlen, hS⟩ := ih (fun s0 hs0 => h s0 (by simp [hs0]))
    refine ⟨r :: ys, ?_, by simp [hlen], ?_⟩
    · rw [mapTransformer]
      simp only [hr, hys]
    · intro r' hr'
      rcases List.mem_cons.1 hr' with h' | h'
      · exact h' ▸ hrS
      · exact hS r' h'

/-! ## Lemmas about the rotary rotation -/

theorem rotate_half_append (a b : List ℝ) (h : a.length = b.length) :
    rotate_half (a ++ b) = b.map Neg.neg ++ a := by
  have hlen : (a ++ b).length / 2 = a.length := by
    simp only [List.length_append, h]
    omega
  simp only [rotate_half, hlen, ← h]
  rw [List.take_left, List.drop_left]

theorem apply_rotary_split (fs a b : List ℝ) (ha : a.length = fs.length)
    (hb : b.length = fs.length) :
    apply_rotary_pos_emb (fs ++ fs) (a ++ b) =
      List.zipWith (· + ·) (List.zipWith (· * ·) a (fs.map Real.cos))
        (List.zipWith (· * ·) (b.map Neg.neg) (fs.map Real.sin)) ++
      List.zipWith (· + ·) (List.zipWith (· * ·) b (fs.map Real.cos))
        (List.zipWith (· * ·) a (fs.map Real.sin)) := by
  unfold apply_rotary_pos_emb
  rw [rotate_half_append a b (ha.trans hb.symm), List.map_append, List.map_append]
  rw [List.zipWith_append _ a b (fs.map Real.cos) (fs.map Real.cos) (by simp [ha])]
  rw [List.zipWith_append _ (b.map Neg.neg) a (fs.map Real.sin) (fs.map Real.sin)
    (by simp [hb])]
  rw [List.zipWith_append _ _ _ _ _ (by simp [List.length_zipWith, ha, hb])]

theorem sumSq_append (l1 l2 : List ℝ) : sumSq (l1 ++ l2) = sumSq l1 + sumSq l2 := by
  simp [sumSq, List.map_append, List.sum_append]

theorem rot_norm_core : ∀ (fs a b : List ℝ), a.length = fs.length →
    b.length = fs.length →
    sumSq (List.zipWith (· + ·) (List.zipWith (· * ·) a (fs.map Real.cos))
        (List.zipWith (· * ·) (b.map Neg.neg) (fs.map Real.sin))) +
      sumSq (List.zipWith (· + ·) (List.zipWith (· * ·) b (fs.map Real.cos))
        (List.zipWith (· * ·) a (fs.map Real.sin))) = sumSq a + sumSq b := by
  intro fs
  induction fs with
  | nil =>
    intro a b ha hb
    rw [List.length_nil] at ha hb
    rw [List.eq_nil_of_length_eq_zero ha, List.eq_nil_of_length_eq_zero hb]
    simp [sumSq]
  | cons f ft ih =>
    intro a b ha hb
    cases a with
    | nil => simp at ha
    | cons a0 at' =>
      cases b with
      | nil => simp at hb
      | cons b0 bt =>
        have hIH := ih at' bt (by simpa using ha) (by simpa using hb)
        simp only [List.map_cons, List.zipWith_cons_cons, sumSq, List.sum_cons] at hIH ⊢
        have hf := Real.sin_sq_add_cos_sq f
        linear_combination (a0 ^ 2 + b0 ^ 2) * hf + hIH

theorem rot_inv_core_left : ∀ (fs a b : List ℝ), a.length = fs.length →
    b.length = fs.length →
    List.zipWith (· + ·)
      (List.zipWith (· * ·)
        (List.zipWith (· + ·) (List.zipWith (· * ·) a (fs.map Real.cos))
          (List.zipWith (· * ·) (b.map Neg.neg) (fs.map Real.sin)))
        (fs.map Real.cos))
      (List.zipWith (· * ·)
        ((List.zipWith (· + ·) (List.zipWith (· * ·) b (fs.map Real.cos))
          (List.zipWith (· * ·) a (fs.map Real.sin))).map Neg.neg)
        ((fs.map Real.sin).map Neg.neg)) = a := by
  intro fs
  induction fs with
  | nil =>
    intro a b ha _
    rw [List.length_nil] at ha
    rw [List.eq_nil_of_length_eq_zero ha]
    simp
  | cons f ft ih =>
    intro a b ha hb
    cases a with
    | nil => simp at ha
    | cons a0 at' =>
      cases b with
      | nil => simp at hb
      | cons b0 bt =>
        simp only [List.map_cons, List.zipWith_cons_cons]
        have hhead : (a0 * Real.cos f + -b0 * Real.sin f) * Real.cos f +
            -(b0 * Real.cos f + a0 * Real.sin f) * -Real.sin f = a0 := by
          linear_combination a0 * Real.sin_sq_add_cos_sq f
        rw [hhead, ih at' bt (by simpa using ha) (by simpa using hb)]

theorem rot_inv_core_right : ∀ (fs a b : List ℝ), a.length = fs.length →
    b.length = fs.length →
    List.zipWith (· + ·)
      (List.zipWith (· * ·)
        (List.zipWith (· + ·) (List.zipWith (· * ·) b (fs.map Real.cos))
          (List.zipWith (· * ·) a (fs.map Real.sin)))
        (fs.map Real.cos))
      (List.zipWith (· * ·)
        (List.zipWith (· + ·) (List.zipWith (· * ·) a (fs.map Real.cos))
          (List.zipWith (· * ·) (b.map Neg.neg) (fs.map Real.sin)))
        ((fs.map Real.sin).map Neg.neg)) = b := by
  intro fs
  induction fs with
  | nil =>
    intro a b _ hb
    rw [List.length_nil] at hb
    rw [List.eq_nil_of_length_eq_zero hb]
    simp
  | cons f ft ih =>
    intro a b ha hb
    cases a with
    | nil => simp at ha
    | cons a0 at' =>
      cases b with
      | nil => simp at hb
      | cons b0 bt =>
        simp only [List.map_cons, List.zipWith_cons_cons]
        have hhead : (b0 * Real.cos f + a0 * Real.sin f) * Real.cos f +
            (a0 * Real.cos f + -b0 * Real.sin f) * -Real.sin f = b0 := by
          linear_combination b0 * Real.sin_sq_add_cos_sq f
        rw [hhead, ih at' bt (by simpa using ha) (by simpa using hb)]

/-! ## Claim theorems -/

/-- C1: the code's masked loss divides each example's summed per-position
loss by mask.sum(), the count of mask-True (excluded) positions, not by
the count of valid mask-False positions as claimed.  At the input
pred = [[[2],[4],[6]]], target = 0, mask = [[True,False,False]] the
surviving per-position losses are 4 and 6; one position is excluded and
two are valid, so the claimed value is (4+6)/2 = 5 for the L1 loss (and
(16+36)/2 = 26 for the squared-error loss), but the code returns
(4+6)/1 = 10 and (16+36)/1 = 52. -/
theorem c1_denominator_counts_excluded :
    durationLoss [[[2],[4],[6]]] [[[0],[0],[0]]] (some [[true,false,false]]) = 10 ∧
    voiceboxLoss [[[2],[4],[6]]] [[[0],[0],[0]]] (some [[true,false,false]]) = 52 ∧
    ((4 : ℚ) + 6) / 2 = 5 ∧ (10 : ℚ) ≠ 5 ∧ ((16 : ℚ) + 36) / 2 = 26 ∧ (52 : ℚ) ≠ 26 := by
  refine ⟨?_, ?_, by norm_num, by norm_num, by norm_num, by norm_num⟩ <;>
    norm_num [durationLoss, voiceboxLoss, maskedLoss, l1BN, mseBN, l1Row, mseRow,
      listMean, maskFillRow, maskDen, abs]

/-- C8: when the mask is True at every position, every per-position loss
is zeroed before the sum, the clamped denominator is at least 1e-5 at
every input (so no division by zero can occur), and DurationPredictor's
forward returns the finite loss 0. -/
theorem c8_all_masked_loss_finite (M : DP) (rng : ℕ → ℚ) (x : BTensor)
    (ids : List (List ℕ)) (cond : BTensor) (p : ℚ) (target : BTensor)
    (mask : List (List Bool)) (l : ℚ)
    (hmask : ∀ row ∈ mask, ∀ b ∈ row, b = true)
    (hrun : dpForward M rng x ids cond p (some target) (some mask) = some l) :
    l = 0 ∧ ∀ mrow : List Bool, (1 : ℚ)/100000 ≤ maskDen mrow := by
  refine ⟨?_, fun mrow => maskDen_ge mrow⟩
  simp only [dpForward] at hrun
  split at hrun
  · split at hrun
    · exact absurd hrun (by simp)
    · rename_i x3 heq
      have hl : durationLoss x3 target (some mask) = l := by
        have := hrun
        injection this
      rw [← hl]
      simp only [durationLoss]
      exact maskedLoss_all_true _ _ hmask
  · exact absurd hrun (by simp)

/-- C8 witness: a concrete DurationPredictor run with the all-True mask
[[true]] succeeds and the theorem yields the zero loss and the clamped
denominator bound. -/
theorem c8_all_masked_loss_finite_witness :
    (∀ row ∈ [[true]], ∀ b ∈ row, b = true) ∧
    ((0 : ℚ) = 0 ∧ ∀ mrow : List Bool, (1 : ℚ)/100000 ≤ maskDen mrow) :=
  ⟨by decide,
    c8_all_masked_loss_finite dpM0 (fun _ => 0) [[[0]]] [[0]] [[[0]]] 0 [[[0]]]
      [[true]] 0 (by decide)
      (by norm_num [dpForward, dpM0, lastDim, cfgApply, embedTokens, addBatch,
        addSeq, ewAdd, mapTransformer, transformerForward, transformerGo,
        durationLoss, maskedLoss, l1BN, l1Row, listMean, maskFillRow, maskDen])⟩

/-- C9: when a mask is supplied but is False everywhere, mask.sum() is 0,
the clamp raises the denominator to the constant 1e-5, and the loss is
the per-example sum of per-position mean absolute errors multiplied by
100000 (that is, divided by 1e-5), averaged over the batch. -/
theorem c9_no_masked_positions (pred target : BTensor) (mask : List (List Bool))
    (hf : List.Forall₂ (fun (lrow : List ℚ) (mrow : List Bool) =>
      lrow.length ≤ mrow.length) (l1BN pred target) mask)
    (hall : ∀ row ∈ mask, ∀ b ∈ row, b = false) :
    durationLoss pred target (some mask) =
      listMean ((l1BN pred target).map (fun lrow => lrow.sum * 100000)) := by
  simp only [durationLoss]
  exact maskedLoss_all_false _ _ hf hall

/-- C9 witness: the concrete all-False-mask instance. -/
theorem c9_no_masked_positions_witness :
    (∀ row ∈ [[false, false]], ∀ b ∈ row, b = false) ∧
    durationLoss [[[2],[4]]] [[[0],[0]]] (some [[false, false]]) =
      listMean ((l1BN [[[2],[4]]] [[[0],[0]]]).map (fun lrow => lrow.sum * 100000)) :=
  ⟨by decide, c9_no_masked_positions [[[2],[4]]] [[[0],[0]]] [[false, false]]
    (by decide) (by decide)⟩

/-- C6: with cond_drop_prob = 1 the drop mask is deterministically all
True whatever the random draws are, so the substitution step feeds the
transformer the learned null conditioning vector at every position of
every batch element and the null phoneme id at every position. -/
theorem c6_cond_drop_prob_one (rng : ℕ → ℚ) (nullCond : FVec) (nullId : ℕ)
    (cond : BTensor) (ids : List (List ℕ)) (hlen : ids.length = cond.length) :
    (cfgApply 1 rng nullCond nullId cond ids).1 =
      cond.map (fun s => s.map (fun _ => nullCond)) ∧
    (cfgApply 1 rng nullCond nullId cond ids).2 =
      ids.map (fun s => s.map (fun _ => nullId)) := by
  have hone : (0 : ℚ) < 1 := by norm_num
  have hm : prob_mask_like cond.length 1 rng = List.replicate cond.length true := by
    simp [prob_mask_like]
  simp only [cfgApply, if_pos hone]
  constructor
  · rw [hm]
    unfold cfgSubstCond
    rw [zipWith_replicate_left _ true cond cond.length le_rfl]
    simp
  · rw [hm]
    unfold cfgSubstIds
    rw [zipWith_replicate_left _ true ids cond.length (le_of_eq hlen)]
    simp

/-- C6 witness: a concrete two-element batch with arbitrary random draws. -/
theorem c6_cond_drop_prob_one_witness :
    ([[3], [9, 9]] : List (List ℕ)).length = ([[[1],[2]], [[4]]] : BTensor).length ∧
    (cfgApply 1 (fun i => 1/(i + 2 : ℚ)) [5] 7 [[[1],[2]], [[4]]] [[3], [9, 9]]).1 =
      [[[5],[5]], [[5]]] ∧
    (cfgApply 1 (fun i => 1/(i + 2 : ℚ)) [5] 7 [[[1],[2]], [[4]]] [[3], [9, 9]]).2 =
      [[7], [7, 7]] :=
  ⟨by decide,
    (c6_cond_drop_prob_one (fun i => 1/(i + 2 : ℚ)) [5] 7 [[[1],[2]], [[4]]]
      [[3], [9, 9]] (by decide)).1,
    (c6_cond_drop_prob_one (fun i => 1/(i + 2 : ℚ)) [5] 7 [[[1],[2]], [[4]]]
      [[3], [9, 9]] (by decide)).2⟩

/-- C7: the validation points are hard preconditions with no recovery:
an odd transformer depth, an even convolution kernel size and an odd
sinusoidal embedding dimension abort construction, and a conditioning
tensor whose last dimension differs from the input's aborts both forward
passes before any computation. -/
theorem c7_fail_fast :
    (∀ (depth : ℕ) (attns ffs : ℕ → STensor → STensor) (combs : ℕ → FVec → FVec),
      depth % 2 = 1 → transformerInit depth attns ffs combs = none) ∧
    (∀ k : ℕ, k % 2 = 0 → convPositionEmbedInit k = none) ∧
    (∀ d : ℕ, d % 2 = 1 → learnedSinusoidalPosEmbInit d = none) ∧
    (∀ (M : DP) (rng : ℕ → ℚ) (x : BTensor) (ids : List (List ℕ)) (cond : BTensor)
      (p : ℚ) (target : Option BTensor) (mask : Option (List (List Bool))),
      lastDim cond ≠ lastDim x → dpForward M rng x ids cond p target mask = none) ∧
    (∀ (M : VB) (rng : ℕ → ℚ) (x : BTensor) (ids : List (List ℕ)) (cond : BTensor)
      (times : List ℚ) (p : ℚ) (target : Option BTensor)
      (mask : Option (List (List Bool))),
      lastDim cond ≠ lastDim x → vbForward M rng x ids cond times p target mask = none) := by
  refine ⟨?_, ?_, ?_, ?_, ?_⟩
  · intro depth attns ffs combs h
    simp only [transformerInit]
    rw [if_neg (by omega)]
  · intro k h
    simp only [convPositionEmbedInit]
    rw [if_neg (by omega)]
  · intro d h
    simp only [learnedSinusoidalPosEmbInit]
    rw [if_neg (by omega)]
  · intro M rng x ids cond p target mask h
    simp only [dpForward]
    rw [if_neg h]
  · intro M rng x ids cond times p target mask h
    simp only [vbForward]
    rw [if_neg h]

/-- C7 witness: depth 3, kernel size 4, dimension 3 and a 2-versus-1
conditioning dimension mismatch all produce none. -/
theorem c7_fail_fast_witness :
    ((3 % 2 = 1) ∧ transformerInit 3 (fun _ s => s) (fun _ s => s) (fun _ v => v) = none) ∧
    ((4 % 2 = 0) ∧ convPositionEmbedInit 4 = none) ∧
    ((3 % 2 = 1) ∧ learnedSinusoidalPosEmbInit 3 = none) ∧
    dpForward dpM0 (fun _ => 0) [[[0]]] [[0]] [[[0, 0]]] 0 none none = none ∧
    vbForward vbM0 (fun _ => 0) [[[0]]] [[0]] [[[0, 0]]] [0] 0 none none = none :=
  ⟨⟨by decide, c7_fail_fast.1 3 _ _ _ (by decide)⟩,
   ⟨by decide, c7_fail_fast.2.1 4 (by decide)⟩,
   ⟨by decide, c7_fail_fast.2.2.1 3 (by decide)⟩,
   c7_fail_fast.2.2.2.1 dpM0 (fun _ => 0) [[[0]]] [[0]] [[[0, 0]]] 0 none none (by decide),
   c7_fail_fast.2.2.2.2 vbM0 (fun _ => 0) [[[0]]] [[0]] [[[0, 0]]] [0] 0 none none (by decide)⟩

/-- C10: depth 0 passes the even-depth precondition (0 is divisible by 2),
the constructed layer list is empty, and the resulting forward pass is
the identity on every input. -/
theorem c10_depth_zero_identity (attns ffs : ℕ → STensor → STensor)
    (combs : ℕ → FVec → FVec) :
    transformerInit 0 attns ffs combs = some (mkTransformerLayers 0 attns ffs combs) ∧
    mkTransformerLayers 0 attns ffs combs = [] ∧
    ∀ x : STensor, transformerForward (mkTransformerLayers 0 attns ffs combs) x = some x :=
  ⟨rfl, rfl, fun _ => rfl⟩

/-- C3: for every batch size B and sequence length N, VoiceBox.forward
with times of shape B, x of shape B x N x D and target = None succeeds
and returns the raw prediction tensor of shape exactly B x N x D: the
time-embedding token prepended before the transformer is split back off
afterward by position count, restoring the original sequence length.
The hypotheses state the shape discipline the learned submodules obey
and that the layer stack is the balanced even-depth stack the
constructor builds. -/
theorem c3_vb_output_shape (M : VB) (m : ℕ) (attns ffs : ℕ → STensor → STensor)
    (combs : ℕ → FVec → FVec) (rng : ℕ → ℚ) (x cond : BTensor)
    (ids : List (List ℕ)) (times : List ℚ) (p : ℚ)
    (mask : Option (List (List Bool))) (B N : ℕ)
    (hlayers : M.layers = mkTransformerLayers (2*m) attns ffs combs)
    (hattn : ∀ i k s, SeqShape k M.dim s → SeqShape k M.dim (attns i s))
    (hff : ∀ i k s, SeqShape k M.dim s → SeqShape k M.dim (ffs i s))
    (hcomb : ∀ i (v : FVec), v.length = 2 * M.dim → (combs i v).length = M.dim)
    (hte : ∀ v : FVec, (M.to_embed v).length = M.dim)
    (hconv : ∀ k s, SeqShape k M.dim s → SeqShape k M.dim (M.conv_embed s))
    (hsinu : ∀ t : ℚ, (M.sinu_pos_emb t).length = M.dim)
    (hdim : lastDim cond = lastDim x)
    (hx : x.length = B) (hxN : ∀ s ∈ x, s.length = N)
    (hcond : cond.length = B) (hcondN : ∀ s ∈ cond, s.length = N)
    (hids : ids.length = B) (hidsN : ∀ s ∈ ids, s.length = N)
    (htimes : times.length = B) :
    ∃ y, vbForward M rng x ids cond times p none mask = some (Sum.inl y) ∧
      BatchShape B N M.dim y := by
  obtain ⟨hc1len, hc1N, hc2len, hc2N⟩ :=
    cfgApply_shapes p rng M.null_cond M.null_phoneme_id cond ids B N
      hcond hcondN hids hidsN
  obtain ⟨hx1len, hx1S⟩ :=
    embedTokens_shape M.to_phoneme_emb M.to_embed x
      (cfgApply p rng M.null_cond M.null_phoneme_id cond ids).2
      (cfgApply p rng M.null_cond M.null_phoneme_id cond ids).1 B N M.dim hte
      hx hxN hc2len hc2N hc1len hc1N
  set x1 := embedTokens M.to_phoneme_emb M.to_embed x
      (cfgApply p rng M.null_cond M.null_phoneme_id cond ids).2
      (cfgApply p rng M.null_cond M.null_phoneme_id cond ids).1 with hx1def
  have hx2len : (addBatch (x1.map M.conv_embed) x1).length = B := by
    simp [addBatch, List.length_zipWith, hx1len]
  have hx2S : ∀ s ∈ addBatch (x1.map M.conv_embed) x1, SeqShape N M.dim s := by
    intro s hs
    rcases mem_zipWith _ _ _ s hs with ⟨sa, sb, hsa, hsb, rfl⟩
    rcases List.mem_map.1 hsa with ⟨s0, hs0, rfl⟩
    exact addSeq_shape N M.dim _ _ (hconv N s0 (hx1S s0 hs0)) (hx1S sb hsb)
  set x2 := addBatch (x1.map M.conv_embed) x1 with hx2def
  have hx3S : ∀ s ∈ List.zipWith (fun tm s => M.sinu_pos_emb tm :: s) times x2,
      SeqShape (N+1) M.dim s := by
    intro s hs
    rcases mem_zipWith _ _ _ s hs with ⟨tm, s2, _, hs2, rfl⟩
    have h2 := hx2S s2 hs2
    constructor
    · simp [h2.1]
    · intro v hv
      rcases List.mem_cons.1 hv with h | h
      · exact h ▸ hsinu tm
      · exact h2.2 v h
  set x3 := List.zipWith (fun tm s => M.sinu_pos_emb tm :: s) times x2 with hx3def
  have hx3len : x3.length = B := by
    rw [hx3def]
    simp [List.length_zipWith, htimes, hx2len]
  have hok := mkTransformerLayers_shape_ok (2*m) attns ffs combs M.dim hattn hff hcomb
  have hrun : ∀ s ∈ x3, ∃ r, transformerForward M.layers s = some r ∧
      SeqShape (N+1) M.dim r := by
    intro s hs
    rw [hlayers]
    exact mkTransformer_forward_shape m attns ffs combs (N+1) M.dim s hok (hx3S s hs)
  obtain ⟨ys, hmapT, hyslen, hysS⟩ := mapTransformer_success M.layers (N+1) M.dim x3 hrun
  refine ⟨ys.map (fun s => s.drop 1), ?_, ?_, ?_⟩
  · simp only [vbForward]
    rw [if_pos hdim]
    rw [← hx1def, ← hx2def, ← hx3def]
    simp only [hmapT]
  · rw [List.length_map, hyslen, hx3len]
  · intro s hs
    rcases List.mem_map.1 hs with ⟨s0, hs0, rfl⟩
    have h0 := hysS s0 hs0
    constructor
    · rw [List.length_drop, h0.1]
      omega
    · intro v hv
      exact h0.2 v (List.mem_of_mem_drop hv)

/-- C3 witness: the concrete one-dimensional VoiceBox with an empty
(depth-0) transformer on a one-token batch of one example. -/
theorem c3_vb_output_shape_witness :
    (vbM0.layers = mkTransformerLayers (2*0) (fun _ s => s) (fun _ s => s)
      (fun _ _ => [0])) ∧
    lastDim [[[0]]] = lastDim [[[0]]] ∧
    ∃ y, vbForward vbM0 (fun _ => 0) [[[0]]] [[0]] [[[0]]] [0] 0 none none =
      some (Sum.inl y) ∧ BatchShape 1 1 vbM0.dim y :=
  ⟨rfl, rfl,
    c3_vb_output_shape vbM0 0 (fun _ s => s) (fun _ s => s) (fun _ _ => [0])
      (fun _ => 0) [[[0]]] [[[0]]] [[0]] [0] 0 none 1 1 rfl
      (fun _ _ _ h => h) (fun _ _ _ h => h) (fun _ _ _ => rfl) (fun _ => rfl)
      (fun _ _ h => h) (fun _ => rfl) rfl rfl (by decide) rfl (by decide) rfl
      (by decide) rfl⟩

/-- C4: every row of the angle table produced by RotaryEmbedding.forward
is an angle list duplicated across the two halves of the last axis; for
any such duplicated table g ++ g and any input a ++ b split into matching
halves, apply_rotary_pos_emb preserves the squared L2 norm of the vector
(each pair (a i, b i) is rotated by the same angle), and applying it
again with the negated angles returns exactly the original vector. -/
theorem c4_rotary_norm_and_inverse (inv_freq : List ℝ) (n : ℕ) (fs a b : List ℝ)
    (ha : a.length = fs.length) (hb : b.length = fs.length) :
    (∀ row ∈ rotaryForward inv_freq n, ∃ g : List ℝ, row = g ++ g) ∧
    sumSq (apply_rotary_pos_emb (fs ++ fs) (a ++ b)) = sumSq (a ++ b) ∧
    apply_rotary_pos_emb ((fs ++ fs).map Neg.neg)
      (apply_rotary_pos_emb (fs ++ fs) (a ++ b)) = a ++ b := by
  refine ⟨?_, ?_, ?_⟩
  · intro row hrow
    simp only [rotaryForward, List.mem_map] at hrow
    rcases hrow with ⟨i, _, hrow⟩
    exact ⟨inv_freq.map (fun f => (i : ℝ) * f), hrow.symm⟩
  · rw [apply_rotary_split fs a b ha hb, sumSq_append, sumSq_append]
    exact rot_norm_core fs a b ha hb
  · rw [apply_rotary_split fs a b ha hb, List.map_append]
    have hR1 : (List.zipWith (· + ·) (List.zipWith (· * ·) a (fs.map Real.cos))
        (List.zipWith (· * ·) (b.map Neg.neg) (fs.map Real.sin))).length =
        (fs.map Neg.neg).length := by
      simp [List.length_zipWith, ha, hb]
    have hR2 : (List.zipWith (· + ·) (List.zipWith (· * ·) b (fs.map Real.cos))
        (List.zipWith (· * ·) a (fs.map Real.sin))).length =
        (fs.map Neg.neg).length := by
      simp [List.length_zipWith, ha, hb]
    rw [apply_rotary_split (fs.map Neg.neg) _ _ hR1 hR2]
    have hcos : (fs.map Neg.neg).map Real.cos = fs.map Real.cos := by
      rw [List.map_map]
      exact List.map_congr_left (fun x _ => Real.cos_neg x)
    have hsin : (fs.map Neg.neg).map Real.sin = (fs.map Real.sin).map Neg.neg := by
      rw [List.map_map, List.map_map]
      exact List.map_congr_left (fun x _ => Real.sin_neg x)
    rw [hcos, hsin]
    rw [rot_inv_core_left fs a b ha hb, rot_inv_core_right fs a b ha hb]

/-- C4 witness: a length-one frequency table with angle 0 and the vector
(1, 2). -/
theorem c4_rotary_norm_and_inverse_witness :
    (([1] : List ℝ).length = ([0] : List ℝ).length) ∧
    (([2] : List ℝ).length = ([0] : List ℝ).length) ∧
    sumSq (apply_rotary_pos_emb (([0] : List ℝ) ++ [0]) (([1] : List ℝ) ++ [2])) =
      sumSq (([1] : List ℝ) ++ [2]) ∧
    apply_rotary_pos_emb ((([0] : List ℝ) ++ [0]).map Neg.neg)
      (apply_rotary_pos_emb (([0] : List ℝ) ++ [0]) (([1] : List ℝ) ++ [2])) =
      ([1] : List ℝ) ++ [2] :=
  ⟨rfl, rfl,
   (c4_rotary_norm_and_inverse [1] 1 [0] [1] [2] rfl rfl).2.1,
   (c4_rotary_norm_and_inverse [1] 1 [0] [1] [2] rfl rfl).2.2⟩

/-- C2: with cond_scale = 1 forward_with_cond_scale of both models is
exactly the single conditioned pass (forward with cond_drop_prob = 0,
whether it succeeds or raises), and with cond_scale different from 1 it
is the linear extrapolation null_logits + (logits - null_logits) *
cond_scale of the conditioned pass and the fully unconditioned pass
(forward with cond_drop_prob = 1). -/
theorem c2_forward_with_cond_scale (M : DP) (MV : VB) (rng : ℕ → ℚ)
    (x xv : BTensor) (ids idsv : List (List ℕ)) (cond condv : BTensor)
    (times : List ℚ) (target targetv : Option BTensor)
    (mask maskv : Option (List (List Bool))) (s : ℚ) :
    dpForwardWithCondScale M rng x ids cond target mask 1 =
      dpForward M rng x ids cond 0 target mask ∧
    vbForwardWithCondScale MV rng xv idsv condv times targetv maskv 1 =
      vbForward MV rng xv idsv condv times 0 targetv maskv ∧
    (s ≠ 1 → ∀ l n : ℚ, dpForward M rng x ids cond 0 target mask = some l →
      dpForward M rng x ids cond 1 target mask = some n →
      dpForwardWithCondScale M rng x ids cond target mask s = some (n + (l - n) * s)) ∧
    (s ≠ 1 → ∀ a b : BTensor,
      vbForward MV rng xv idsv condv times 0 targetv maskv = some (Sum.inl a) →
      vbForward MV rng xv idsv condv times 1 targetv maskv = some (Sum.inl b) →
      vbForwardWithCondScale MV rng xv idsv condv times targetv maskv s =
        some (Sum.inl (addBatch b (scaleBatch s (subBatch a b))))) := by
  refine ⟨?_, ?_, ?_, ?_⟩
  · cases h : dpForward M rng x ids cond 0 target mask <;>
      simp [dpForwardWithCondScale, h]
  · cases h : vbForward MV rng xv idsv condv times 0 targetv maskv <;>
      simp [vbForwardWithCondScale, h]
  · intro hs l n h0 h1
    simp [dpForwardWithCondScale, h0, h1, hs]
  · intro hs a b h0 h1
    simp [vbForwardWithCondScale, h0, h1, hs, cfgCombine]

/-- C2 witness: a concrete run of both models at cond_scale 2, where both
passes succeed and the extrapolation formula is produced. -/
theorem c2_forward_with_cond_scale_witness :
    ((2 : ℚ) ≠ 1) ∧
    dpForwardWithCondScale dpM0 (fun _ => 0) [[[0]]] [[0]] [[[0]]]
      (some [[[0]]]) none 2 = some (0 + (0 - 0) * 2) ∧
    vbForwardWithCondScale vbM0 (fun _ => 0) [[[0]]] [[0]] [[[0]]] [0] none none 2 =
      some (Sum.inl (addBatch [[[0]]] (scaleBatch 2 (subBatch [[[0]]] [[[0]]])))) :=
  ⟨by norm_num,
   (c2_forward_with_cond_scale dpM0 vbM0 (fun _ => 0) [[[0]]] [[[0]]] [[0]] [[0]]
     [[[0]]] [[[0]]] [0] (some [[[0]]]) none none none 2).2.2.1 (by norm_num) 0 0
     (by norm_num [dpForward, dpM0, lastDim, cfgApply, embedTokens, addBatch,
       addSeq, ewAdd, mapTransformer, transformerForward, transformerGo,
       durationLoss, l1LossMean, listMean])
     (by norm_num [dpForward, dpM0, lastDim, cfgApply, prob_mask_like,
       cfgSubstCond, cfgSubstIds, embedTokens, addBatch, addSeq, ewAdd,
       mapTransformer, transformerForward, transformerGo, durationLoss,
       l1LossMean, listMean]),
   (c2_forward_with_cond_scale dpM0 vbM0 (fun _ => 0) [[[0]]] [[[0]]] [[0]] [[0]]
     [[[0]]] [[[0]]] [0] (some [[[0]]]) none none none 2).2.2.2 (by norm_num)
     [[[0]]] [[[0]]]
     (by norm_num [vbForward, vbM0, lastDim, cfgApply, embedTokens, addBatch,
       addSeq, ewAdd, mapTransformer, transformerForward, transformerGo])
     (by norm_num [vbForward, vbM0, lastDim, cfgApply, prob_mask_like,
       cfgSubstCond, cfgSubstIds, embedTokens, addBatch, addSeq, ewAdd,
       mapTransformer, transformerForward, transformerGo])⟩

/-- C5: in a Transformer of even depth 2m every layer applies residual
attention then residual feedforward to its pre-attention input; layer j
(0-indexed) carries a skip combiner exactly when it lies in the second
half (m <= j); each first-half layer pushes its pre-attention input and
pops nothing; and each second-half layer j pops exactly the pre-attention
input recorded by its mirror layer 2m-1-j (1-indexed: layer k pairs with
layer depth+1-k), concatenates it featurewise with the current state and
runs the learned combiner before its attention step. -/
theorem c5_unet_skip_pairing (m : ℕ) (attns ffs : ℕ → STensor → STensor)
    (combs : ℕ → FVec → FVec) (x : STensor) :
    ∃ y tr,
      transformerGo (mkTransformerLayers (2*m) attns ffs combs) x [] =
        some (y, [], tr) ∧
      tr.length = 2*m ∧
      (∀ j l, (mkTransformerLayers (2*m) attns ffs combs)[j]? = some l →
        (l.skip_combiner.isSome ↔ m ≤ j)) ∧
      (∀ j, j < m → ∃ inp, tr[j]? = some (inp, none)) ∧
      (∀ j, m ≤ j → j < 2*m → ∃ inp pop, tr[j]? = some (inp, some pop) ∧
        (tr[2*m - 1 - j]?).map Prod.fst = some pop) ∧
      (∀ (l : TLayer) (xx : STensor) (st : List STensor), l.skip_combiner = none →
        layerStep l xx st =
          some (addSeq (l.ff (addSeq (l.attn xx) xx)) (addSeq (l.attn xx) xx),
            xx :: st, (xx, none))) ∧
      (∀ (l : TLayer) (c : FVec → FVec) (xx top : STensor) (rest : List STensor),
        l.skip_combiner = some c →
        layerStep l xx (top :: rest) =
          some (plainStep l (List.zipWith (fun xv sv => c (xv ++ sv)) xx top), rest,
            (List.zipWith (fun xv sv => c (xv ++ sv)) xx top, some top))) := by
  have hsplit := mkTransformerLayers_split m attns ffs combs
  set A := (List.range m).map (fun ind =>
    ({ skip_combiner := none, attn := attns ind, ff := ffs ind } : TLayer)) with hA
  set B := (List.range m).map (fun j =>
    ({ skip_combiner := some (combs (m + j)), attn := attns (m + j),
       ff := ffs (m + j) } : TLayer)) with hB
  have hAnone : ∀ l ∈ A, l.skip_combiner = none := by
    intro l hl
    rcases List.mem_map.1 hl with ⟨i, _, rfl⟩
    rfl
  have hBsome : ∀ l ∈ B, (l.skip_combiner).isSome := by
    intro l hl
    rcases List.mem_map.1 hl with ⟨i, _, rfl⟩
    rfl
  have hAlen : A.length = m := by rw [hA, List.length_map, List.length_range]
  have hBlen : B.length = m := by rw [hB, List.length_map, List.length_range]
  have goA := transformerGo_noskip A hAnone x []
  set inputs := plainFoldInputs A x with hinputs
  have hinLen : inputs.length = m := by rw [hinputs, plainFoldInputs_length, hAlen]
  rw [List.append_nil] at goA
  have hrevLen : inputs.reverse.length = m := by rw [List.length_reverse, hinLen]
  obtain ⟨y, trB, hgoB, htrBlen, hjB⟩ :=
    transformerGo_allskip B inputs.reverse (plainFold A x) hBsome
      (by rw [hBlen, hrevLen])
  have hdrop : inputs.reverse.drop B.length = [] := by
    rw [hBlen, ← hrevLen]
    exact List.drop_length _
  rw [hdrop] at hgoB
  have hgoAll := transformerGo_append_some A B x [] (plainFold A x) inputs.reverse
    (inputs.map (fun i => (i, none))) y [] trB goA hgoB
  have htrA : (inputs.map (fun i =>
      ((i : STensor), (none : Option STensor)))).length = m := by
    rw [List.length_map, hinLen]
  refine ⟨y, inputs.map (fun i => (i, none)) ++ trB, ?_, ?_, ?_, ?_, ?_, ?_, ?_⟩
  · rw [hsplit]
    exact hgoAll
  · rw [List.length_append, List.length_map, hinLen, htrBlen, hBlen]
    omega
  · intro j l hjl
    rw [hsplit] at hjl
    rw [List.getElem?_append] at hjl
    by_cases hj : j < m
    · rw [if_pos (by rw [hAlen]; exact hj)] at hjl
      rw [hA, List.getElem?_map, List.getElem?_range hj] at hjl
      simp only [Option.map_some', Option.some.injEq] at hjl
      constructor
      · intro hcon
        rw [← hjl] at hcon
        simp at hcon
      · intro hge
        exact absurd hge (by omega)
    · rw [if_neg (by rw [hAlen]; exact hj)] at hjl
      rw [hB, List.getElem?_map] at hjl
      by_cases hj2 : j - A.length < m
      · rw [List.getElem?_range hj2] at hjl
        simp only [Option.map_some', Option.some.injEq] at hjl
        constructor
        · intro _
          omega
        · intro _
          rw [← hjl]
          rfl
      · rw [List.getElem?_eq_none (by rw [List.length_range]; omega)] at hjl
        simp at hjl
  · intro j hj
    cases hv : inputs[j]? with
    | none =>
      have := List.getElem?_eq_none_iff.1 hv
      rw [hinLen] at this
      omega
    | some v =>
      refine ⟨v, ?_⟩
      rw [List.getElem?_append, if_pos (by rw [htrA]; exact hj),
        List.getElem?_map, hv]
      rfl
  · intro j hjm hj2m
    have hk : j - m < m := by omega
    obtain ⟨inp, pop, h1, h2⟩ := hjB (j - m) (by rw [hBlen]; exact hk)
    refine ⟨inp, pop, ?_, ?_⟩
    · rw [List.getElem?_append_right (by rw [htrA]; omega), htrA]
      exact h1
    · rw [List.getElem?_append, if_pos (by rw [htrA]; omega), List.getElem?_map]
      rw [List.getElem?_reverse (by rw [hinLen]; exact hk)] at h2
      have hidx : inputs.length - 1 - (j - m) = 2*m - 1 - j := by
        rw [hinLen]
        omega
      rw [hidx] at h2
      rw [h2]
      rfl
  · intro l xx st h
    rw [layerStep_noskip l xx st h]
    rfl
  · intro l c xx top rest h
    exact layerStep_skip l c xx top rest h

/-- C5 witness: the depth-2 instance with identity blocks on a one-token
input. -/
theorem c5_unet_skip_pairing_witness :
    ∃ y tr,
      transformerGo (mkTransformerLayers (2*1) (fun _ s => s) (fun _ s => s)
        (fun _ v => v)) [[0]] [] = some (y, [], tr) ∧
      tr.length = 2*1 ∧
      (∀ j l, (mkTransformerLayers (2*1) (fun _ s => s) (fun _ s => s)
        (fun _ v => v))[j]? = some l → (l.skip_combiner.isSome ↔ 1 ≤ j)) ∧
      (∀ j, j < 1 → ∃ inp, tr[j]? = some (inp, none)) ∧
      (∀ j, 1 ≤ j → j < 2*1 → ∃ inp pop, tr[j]? = some (inp, some pop) ∧
        (tr[2*1 - 1 - j]?).map Prod.fst = some pop) ∧
      (∀ (l : TLayer) (xx : STensor) (st : List STensor), l.skip_combiner = none →
        layerStep l xx st =
          some (addSeq (l.ff (addSeq (l.attn xx) xx)) (addSeq (l.attn xx) xx),
            xx :: st, (xx, none))) ∧
      (∀ (l : TLayer) (c : FVec → FVec) (xx top : STensor) (rest : List STensor),
        l.skip_combiner = some c →
        layerStep l xx (top :: rest) =
          some (plainStep l (List.zipWith (fun xv sv => c (xv ++ sv)) xx top), rest,
            (List.zipWith (fun xv sv => c (xv ++ sv)) xx top, some top))) :=
  c5_unet_skip_pairing 1 (fun _ s => s) (fun _ s => s) (fun _ v => v) [[0]]

/-- C10 witness: the depth-0 transformer returns its input unchanged. -/
theorem c10_depth_zero_identity_witness :
    transformerForward (mkTransformerLayers 0 (fun _ s => s) (fun _ s => s)
      (fun _ v => v)) [[3, 1]] = some [[3, 1]] :=
  (c10_depth_zero_identity (fun _ s => s) (fun _ s => s) (fun _ v => v)).2.2 [[3, 1]]
